import Mathlib

/-!
# Verification of the bollinger-bands zone-identification core

Shallow embedding of the zone-identification state machine
(`src/bollinger_bands/strategies/zones.py`, function
`identify_entry_zones_with_conditions`) and of the crossing-detection
helpers (`src/bollinger_bands/indicators/crossing_detection.py`,
functions `detect_price_crossing_down_period` and
`check_ma_conditions_for_period`), together with the crossing-filter
acceptance rules of `examples/app.py` (`update_chart`).

Dates are modelled as natural numbers (a trading-date index is an
ordered sequence of timestamps; only their ordering and equality are
used by the embedded code).  Price/MA values are modelled as rationals.

The zone identifier consumes, per date `i` of the price series:
  * `below`   — `data['Close'] < ma_values` at `i` (zones.py line 26);
  * `cond`    — the per-date `conditions_met` boolean (zones.py lines
                45-63: `combined_ma_condition.iloc[i]` in daily mode, or
                the result of `check_ma_conditions_for_period` for the
                date's month/quarter in periodic mode);
  * `reentry` — `reentry_signals.iloc[i]`.
These three date-aligned boolean series are supplied as fields of `Row`;
every theorem below quantifies over them, so it covers both the daily
and the periodic instantiation of `conditions_met`.
-/

namespace BollingerBands

/-- One date of the input series, with the three boolean series the zone
identifier reads at that date. -/
structure Row where
  date : Nat
  below : Bool
  cond : Bool
  reentry : Bool
deriving DecidableEq, Repr

/-- An output zone, mirroring the dict built in zones.py (keys
`exit_signal`, `start`, `reentry_signals`, `end`, `completed`; `end` is
a reserved word in Lean, hence the field name `end_`). -/
structure Zone where
  exit_signal : Nat
  start : Nat
  reentry_signals : List Nat
  end_ : Nat
  completed : Bool
deriving DecidableEq, Repr

/-- The loop variables `zone_start`, `zone_exit_signal`,
`zone_reentry_signals` of zones.py, bundled; they are populated exactly
while `in_zone` is true. -/
structure OpenZone where
  zone_start : Nat
  zone_exit_signal : Nat
  zone_reentry_signals : List Nat
deriving DecidableEq, Repr

/-- The mutable state of the single left-to-right pass of
`identify_entry_zones_with_conditions`: the two output accumulators, the
open-zone variables (`open_zone = some _` iff `in_zone` is true), and
the `processed_crossings` set (modelled as a duplicate-free list; only
membership, insertion and removal are used). -/
structure MachineState where
  green_zones : List Zone
  orange_zones : List Zone
  open_zone : Option OpenZone
  processed_crossings : List Nat
deriving DecidableEq, Repr

/-- The configuration arguments of the zone identifier that the state
machine itself reads. -/
structure ZoneConfig where
  max_reentry_signals : Nat
  reenter_after_orange : Bool
deriving DecidableEq, Repr

/-- zones.py lines 66-70: walk `crossing_dates` in list order and return
the first date that is `<= current_date` and not in
`processed_crossings` (the Python loop breaks at the first hit). -/
def find_current_crossing (crossing_dates processed : List Nat)
    (current_date : Nat) : Option Nat :=
  crossing_dates.find? fun c =>
    decide (c ≤ current_date) && !(processed.contains c)

/-- zones.py lines 72-79: entry transition.  If an unprocessed exit
signal exists, price is below the MA, the MA conditions hold and no zone
is open, open a zone starting (retroactively) at the exit-signal date
and mark that signal processed. -/
def entryStep (crossing_dates : List Nat) (s : MachineState) (r : Row) :
    MachineState :=
  match s.open_zone,
        find_current_crossing crossing_dates s.processed_crossings r.date with
  | none, some c =>
      if r.below && r.cond then
        { s with open_zone := some ⟨c, c, []⟩,
                 processed_crossings := s.processed_crossings.insert c }
      else s
  | _, _ => s

/-- zones.py lines 81-99: while a zone is open, append the current date
to its re-entry signals when the re-entry series fires; if the count
reaches `max_reentry_signals`, close the zone as green (completed) with
`end` equal to the current date. -/
def reentryStep (max_reentry_signals : Nat) (s : MachineState) (r : Row) :
    MachineState :=
  match s.open_zone with
  | some oz =>
      if r.reentry then
        let sigs := oz.zone_reentry_signals ++ [r.date]
        if max_reentry_signals ≤ sigs.length then
          { s with
              green_zones := s.green_zones ++
                [⟨oz.zone_exit_signal, oz.zone_start, sigs, r.date, true⟩],
              open_zone := none }
        else
          { s with open_zone := some ⟨oz.zone_start, oz.zone_exit_signal, sigs⟩ }
      else s
  | none => s

/-- zones.py lines 101-128: while a zone is (still) open, if price is no
longer below the MA, close the zone as orange (incomplete) with `end`
equal to the previous date (or the current date on the very first row),
and — when `reenter_after_orange` is false — remove the consumed exit
signal from `processed_crossings` so it can be reused. -/
def aboveMAStep (reenter_after_orange : Bool) (prev_date : Option Nat)
    (s : MachineState) (r : Row) : MachineState :=
  match s.open_zone with
  | some oz =>
      if !r.below then
        { s with
            orange_zones := s.orange_zones ++
              [⟨oz.zone_exit_signal, oz.zone_start, oz.zone_reentry_signals,
                prev_date.getD r.date, false⟩],
            open_zone := none,
            processed_crossings :=
              if reenter_after_orange then s.processed_crossings
              else s.processed_crossings.erase oz.zone_exit_signal }
      else s
  | none => s

/-- One iteration of the `for i in range(len(data))` loop of zones.py
(lines 42-128), in the source's statement order: entry transition, then
re-entry accumulation / green close, then orange close. -/
def zoneStep (cfg : ZoneConfig) (crossing_dates : List Nat)
    (prev_date : Option Nat) (s : MachineState) (r : Row) : MachineState :=
  aboveMAStep cfg.reenter_after_orange prev_date
    (reentryStep cfg.max_reentry_signals (entryStep crossing_dates s r) r) r

/-- The full loop of zones.py lines 42-128; `prev_date` is
`data.index[i-1]` (none on the first row). -/
def zoneLoop (cfg : ZoneConfig) (crossing_dates : List Nat) :
    Option Nat → MachineState → List Row → MachineState
  | _, s, [] => s
  | prev, s, r :: rs =>
      zoneLoop cfg crossing_dates (some r.date)
        (zoneStep cfg crossing_dates prev s r) rs

/-- zones.py lines 130-149: if a zone is still open after the loop,
close it at the series' last date, green when the re-entry count already
met the threshold, orange otherwise. -/
def zoneFinalize (max_reentry_signals : Nat) (last_date : Nat)
    (s : MachineState) : MachineState :=
  match s.open_zone with
  | some oz =>
      if max_reentry_signals ≤ oz.zone_reentry_signals.length then
        { s with
            green_zones := s.green_zones ++
              [⟨oz.zone_exit_signal, oz.zone_start,
                oz.zone_reentry_signals, last_date, true⟩],
            open_zone := none }
      else
        { s with
            orange_zones := s.orange_zones ++
              [⟨oz.zone_exit_signal, oz.zone_start,
                oz.zone_reentry_signals, last_date, false⟩],
            open_zone := none }
  | none => s

/-- Stable insertion of a zone into a list sorted by `start` (the
inserted zone goes before the first element with a `start` not smaller
than its own). -/
def insertZoneByStart (z : Zone) : List Zone → List Zone
  | [] => [z]
  | a :: as =>
      if z.start ≤ a.start then z :: a :: as else a :: insertZoneByStart z as

/-- zones.py line 173: `zones.sort(key=lambda z: z['start'])` — Python's
sort is stable, so the result is the unique stable ascending reordering
by `start`; realized here as a stable insertion sort. -/
def sortZonesByStart : List Zone → List Zone
  | [] => []
  | z :: zs => insertZoneByStart z (sortZonesByStart zs)

/-- The initial loop state of zones.py lines 24-40. -/
def initialState : MachineState := ⟨[], [], none, []⟩

/-- `identify_entry_zones_with_conditions` (zones.py lines 11-175): run
the single pass over the rows, close any zone left open at the series'
last date, and return `green_zones + orange_zones` stably sorted by
`start`.  `crossing_dates` is
`display_data.index[price_crossing == 1].tolist()` (line 29). -/
def identify_entry_zones_with_conditions (cfg : ZoneConfig)
    (rows : List Row) (crossing_dates : List Nat) : List Zone :=
  let s := zoneLoop cfg crossing_dates none initialState rows
  let s := match rows.getLast? with
           | some rl => zoneFinalize cfg.max_reentry_signals rl.date s
           | none => s
  sortZonesByStart (s.green_zones ++ s.orange_zones)

/-- All zones accumulated so far (green first, as concatenated on
zones.py line 172). -/
def allZones (s : MachineState) : List Zone :=
  s.green_zones ++ s.orange_zones

/-- Modelled from the spec's words for the refinement comparison of
claim C1 only ("the latest crossing-event date at or before the current
date that has not yet been consumed"): among the unconsumed crossing
dates `≤ current_date`, the maximal one.  The source function to compare
against is `find_current_crossing`. -/
def latest_unconsumed_crossing_spec (crossing_dates processed : List Nat)
    (current_date : Nat) : Option Nat :=
  (crossing_dates.filter fun c =>
    decide (c ≤ current_date) && !(processed.contains c)).max?

/-!
## Crossing detection and the MA-condition filters

Embedding of `check_ma_conditions_for_period` and
`detect_price_crossing_down_period`
(`indicators/crossing_detection.py`), and of the two acceptance rules
`update_chart` in `examples/app.py` applies to candidate crossings
(daily lookahead filter, lines 610-628; monthly/quarterly filter, lines
662-720).
-/

/-- `check_ma_conditions_for_period` (crossing_detection.py lines
88-113).  `daily` is the daily index paired with the boolean
`ma_condition` series; the result mirrors the Python 4-tuple
`(conditions_met, condition_pct, days_with_conditions, days_in_period)`.
A window containing zero daily rows returns `(False, 0.0, 0, 0)`. -/
def check_ma_conditions_for_period (period_end_date period_start_date : Nat)
    (daily : List (Nat × Bool)) (threshold : ℚ) : Bool × ℚ × Nat × Nat :=
  let mask := daily.filter fun p =>
    decide (period_start_date ≤ p.1) && decide (p.1 ≤ period_end_date)
  if mask.length = 0 then (false, 0, 0, 0)
  else
    let days_in_period := mask.length
    let days_with_conditions := (mask.filter fun p => p.2).length
    let condition_pct : ℚ := (days_with_conditions : ℚ) / (days_in_period : ℚ)
    (decide (threshold ≤ condition_pct), condition_pct,
     days_with_conditions, days_in_period)

/-- The daily lookahead filter of app.py lines 615-626: a candidate
crossing is kept when the check window has days and the conditions are
met, or — by default — when the window contains zero daily rows
(`elif total_days == 0`). -/
def daily_crossing_accepted (cross_date lookahead_end : Nat)
    (daily : List (Nat × Bool)) (threshold : ℚ) : Bool :=
  let r := check_ma_conditions_for_period lookahead_end cross_date daily threshold
  (decide (0 < r.2.2.2) && r.1) || decide (r.2.2.2 = 0)

/-- The monthly/quarterly filter of app.py lines 669-717: whichever
window is used (crossing day to period end, or the whole period as
fallback), the candidate is kept iff `conditions_met` is true. -/
def periodic_crossing_accepted (window_end window_start : Nat)
    (daily : List (Nat × Bool)) (threshold : ℚ) : Bool :=
  (check_ma_conditions_for_period window_end window_start daily threshold).1

/-- One aggregated (monthly/quarterly) candle as seen by
`detect_price_crossing_down_period`: its (shifted) index date, `Open`,
`Close`, and the MA value aligned to it; `none` models NaN. -/
structure PeriodCandle where
  date : Nat
  open_ : Option ℚ
  close : Option ℚ
  ma : Option ℚ
deriving DecidableEq, Repr

/-- A candle surviving the NaN mask, with all three values defined. -/
structure CleanCandle where
  date : Nat
  open_ : ℚ
  close : ℚ
  ma : ℚ
deriving DecidableEq, Repr

/-- The NaN cleaning of crossing_detection.py lines 66-68: keep rows
where `Open`, `Close` and the MA are all defined. -/
def clean_candles (rows : List PeriodCandle) : List CleanCandle :=
  rows.filterMap fun r =>
    match r.open_, r.close, r.ma with
    | some o, some c, some m => some ⟨r.date, o, c, m⟩
    | _, _, _ => none

/-- `detect_price_crossing_down_period` (crossing_detection.py lines
58-85), as the list of dates flagged `1` in the returned signal: after
NaN cleaning, if fewer than 2 rows survive, nothing is flagged (line
70); otherwise a candle is flagged iff `Open >= MA and Close < MA`
(line 81). -/
def detect_price_crossing_down_period (rows : List PeriodCandle) :
    List Nat :=
  let clean := clean_candles rows
  if clean.length < 2 then []
  else
    (clean.filter fun q => decide (q.ma ≤ q.open_) && decide (q.close < q.ma)).map
      CleanCandle.date

/-!
## Properties of the exit-signal scan
-/

/-- A crossing returned by the scan is a crossing date, is at or before
the current date, and is unconsumed. -/
theorem find_current_crossing_sound {crossing_dates processed : List Nat}
    {d c : Nat} (h : find_current_crossing crossing_dates processed d = some c) :
    c ∈ crossing_dates ∧ c ≤ d ∧ c ∉ processed := by
  refine ⟨List.mem_of_find?_eq_some h, ?_⟩
  have hp := List.find?_some h
  simp at hp
  exact hp

/-- If the crossing-date list is strictly ascending, every crossing date
strictly before the one the scan returns is already consumed. -/
theorem find_current_crossing_earlier_processed
    {crossing_dates processed : List Nat} {d c : Nat}
    (hsort : crossing_dates.Pairwise (· < ·))
    (h : find_current_crossing crossing_dates processed d = some c) :
    ∀ e ∈ crossing_dates, e < c → e ∈ processed := by
  induction crossing_dates with
  | nil => simp [find_current_crossing] at h
  | cons a t ih =>
    rcases List.pairwise_cons.1 hsort with ⟨ha, ht⟩
    by_cases hpa : (decide (a ≤ d) && !(processed.contains a)) = true
    · rw [find_current_crossing, List.find?_cons_of_pos t hpa] at h
      obtain rfl : a = c := by injection h
      intro e he hec
      rcases List.mem_cons.1 he with rfl | het
      · exact absurd hec (lt_irrefl _)
      · exact absurd hec (not_lt_of_lt (ha e het))
    · rw [find_current_crossing, List.find?_cons_of_neg t hpa] at h
      have h' : find_current_crossing t processed d = some c := h
      have hcd : c ≤ d := (find_current_crossing_sound h').2.1
      intro e he hec
      rcases List.mem_cons.1 he with rfl | het
      · have had : e ≤ d := le_of_lt (lt_of_lt_of_le hec hcd)
        simp [had] at hpa
        exact hpa
      · exact ih ht h' e het hec

/-- C1, corrected.  The scan of zones.py lines 66-70 walks the
crossing-date list in ascending index order and breaks at the first hit,
so the exit signal it selects for a potential entry transition is the
EARLIEST unconsumed crossing date at or before the current date (the
claim says the latest): the returned date is eligible and is a lower
bound of all eligible crossing dates. -/
theorem find_current_crossing_is_earliest
    (crossing_dates processed : List Nat) (d c : Nat)
    (hsort : crossing_dates.Pairwise (· < ·))
    (h : find_current_crossing crossing_dates processed d = some c) :
    (c ∈ crossing_dates ∧ c ≤ d ∧ c ∉ processed) ∧
      ∀ e ∈ crossing_dates, e ≤ d → e ∉ processed → c ≤ e := by
  refine ⟨find_current_crossing_sound h, fun e he _ hep => ?_⟩
  by_contra hlt
  exact hep (find_current_crossing_earlier_processed hsort h e he
    (lt_of_not_le hlt))

/-- Witness for `find_current_crossing_is_earliest` at a concrete
input. -/
theorem find_current_crossing_is_earliest_witness :
    ((3 ∈ [3, 7] ∧ 3 ≤ 8 ∧ 3 ∉ ([] : List Nat)) ∧
      ∀ e ∈ [3, 7], e ≤ 8 → e ∉ ([] : List Nat) → 3 ≤ e) :=
  find_current_crossing_is_earliest [3, 7] [] 8 3 (by decide) (by decide)

/-- Counterexample to C1 as stated: with unconsumed crossings at dates 0
and 1 and current date 1, the scan selects date 0, while the latest
unconsumed crossing at or before date 1 is date 1; a run in which both
crossings are pending at the entry date accordingly opens its zone from
exit signal 0, not 1. -/
theorem find_current_crossing_not_latest :
    find_current_crossing [0, 1] [] 1 = some 0 ∧
      latest_unconsumed_crossing_spec [0, 1] [] 1 = some 1 ∧
      find_current_crossing [0, 1] [] 1 ≠
        latest_unconsumed_crossing_spec [0, 1] [] 1 ∧
      identify_entry_zones_with_conditions ⟨1, false⟩
        [⟨0, false, false, false⟩, ⟨1, true, true, true⟩] [0, 1] =
        [⟨0, 0, [1], 1, true⟩] := by decide

/-!
## C3: green close is decided before orange close
-/

/-- C3, confirmed.  One step of the machine with a zone open, the
re-entry series true at the current date, and the accumulated count
reaching `max_reentry_signals`: the zone is closed green with `end`
equal to that exact date, no orange zone is emitted, and the machine
leaves the zone — with no constraint at all on `r.below`, i.e. even when
price is simultaneously no longer below the long MA at that date
(zones.py checks the green close, lines 81-99, before the orange close,
lines 101-128).  With `max_reentry_signals = 1` the hypothesis `hmax`
holds at the first re-entry signal, so the zone closes green at that
exact date. -/
theorem green_close_decided_before_orange (cfg : ZoneConfig)
    (crossing_dates : List Nat) (prev : Option Nat) (s : MachineState)
    (r : Row) (oz : OpenZone) (hopen : s.open_zone = some oz)
    (hre : r.reentry = true)
    (hmax : cfg.max_reentry_signals ≤ oz.zone_reentry_signals.length + 1) :
    (zoneStep cfg crossing_dates prev s r).green_zones =
      s.green_zones ++
        [⟨oz.zone_exit_signal, oz.zone_start,
          oz.zone_reentry_signals ++ [r.date], r.date, true⟩] ∧
    (zoneStep cfg crossing_dates prev s r).orange_zones = s.orange_zones ∧
    (zoneStep cfg crossing_dates prev s r).open_zone = none := by
  have he : entryStep crossing_dates s r = s := by
    unfold entryStep; rw [hopen]
  have hlen : (oz.zone_reentry_signals ++ [r.date]).length =
      oz.zone_reentry_signals.length + 1 := by simp
  have hr : reentryStep cfg.max_reentry_signals s r =
      { s with green_zones := s.green_zones ++
                 [⟨oz.zone_exit_signal, oz.zone_start,
                   oz.zone_reentry_signals ++ [r.date], r.date, true⟩],
               open_zone := none } := by
    unfold reentryStep; rw [hopen, hre]
    simp only [if_true]
    rw [if_pos (by rw [hlen]; exact hmax)]
  unfold zoneStep
  rw [he, hr]
  unfold aboveMAStep
  exact ⟨rfl, rfl, rfl⟩

/-- Witness for `green_close_decided_before_orange`: a zone open with no
signals yet, `max_reentry_signals = 1`, a re-entry signal at date 3
while price is already back above the MA (`below = false`): the zone
closes green with end 3. -/
theorem green_close_decided_before_orange_witness :
    (zoneStep ⟨1, false⟩ [] (some 2) ⟨[], [], some ⟨0, 0, []⟩, [0]⟩
        ⟨3, false, false, true⟩).green_zones = [⟨0, 0, [3], 3, true⟩] ∧
    (zoneStep ⟨1, false⟩ [] (some 2) ⟨[], [], some ⟨0, 0, []⟩, [0]⟩
        ⟨3, false, false, true⟩).orange_zones = [] ∧
    (zoneStep ⟨1, false⟩ [] (some 2) ⟨[], [], some ⟨0, 0, []⟩, [0]⟩
        ⟨3, false, false, true⟩).open_zone = none := by
  have h := green_close_decided_before_orange ⟨1, false⟩ [] (some 2)
    ⟨[], [], some ⟨0, 0, []⟩, [0]⟩ ⟨3, false, false, true⟩ ⟨0, 0, []⟩
    rfl rfl (by decide)
  simpa using h

/-!
## C9: determinism
-/

/-- C9, confirmed.  The zone identifier is a pure function of the price
series (rows), the signal series and the configuration: two runs on
identical inputs return identical ordered zone lists.  (The Python
function reads only its arguments and module-level pure helpers; its
only side effects are debug prints.) -/
theorem identify_entry_zones_deterministic (cfg cfg' : ZoneConfig)
    (rows rows' : List Row) (crossing_dates crossing_dates' : List Nat)
    (hc : cfg = cfg') (hr : rows = rows') (hx : crossing_dates = crossing_dates') :
    identify_entry_zones_with_conditions cfg rows crossing_dates =
      identify_entry_zones_with_conditions cfg' rows' crossing_dates' := by
  rw [hc, hr, hx]

/-- Witness for `identify_entry_zones_deterministic` at a concrete
input. -/
theorem identify_entry_zones_deterministic_witness :
    identify_entry_zones_with_conditions ⟨1, false⟩
        [⟨0, true, true, false⟩, ⟨1, true, true, true⟩] [0] =
      identify_entry_zones_with_conditions ⟨1, false⟩
        [⟨0, true, true, false⟩, ⟨1, true, true, true⟩] [0] :=
  identify_entry_zones_deterministic ⟨1, false⟩ ⟨1, false⟩
    [⟨0, true, true, false⟩, ⟨1, true, true, true⟩]
    [⟨0, true, true, false⟩, ⟨1, true, true, true⟩] [0] [0] rfl rfl rfl

/-!
## C6: zero-day MA-condition windows
-/

/-- C6, corrected.  When the MA-condition check window contains zero
daily rows, the daily lookahead filter of app.py (lines 623-626) accepts
the candidate by default, but the periodic (monthly/quarterly) filter of
app.py (line 716) keeps a candidate only when `conditions_met` is true,
and `check_ma_conditions_for_period` returns `conditions_met = False`
for an empty window (crossing_detection.py lines 105-106) — so the
periodic path REJECTS such a candidate. -/
theorem zero_day_window_daily_accepts_periodic_rejects
    (window_start window_end : Nat) (daily : List (Nat × Bool)) (thr : ℚ)
    (hempty : (daily.filter fun p =>
      decide (window_start ≤ p.1) && decide (p.1 ≤ window_end)) = []) :
    daily_crossing_accepted window_start window_end daily thr = true ∧
      periodic_crossing_accepted window_end window_start daily thr = false := by
  have hc : check_ma_conditions_for_period window_end window_start daily thr =
      (false, 0, 0, 0) := by
    unfold check_ma_conditions_for_period
    rw [hempty]
    rfl
  unfold daily_crossing_accepted periodic_crossing_accepted
  rw [hc]
  exact ⟨rfl, rfl⟩

/-- Witness for `zero_day_window_daily_accepts_periodic_rejects`: daily
rows exist only at dates 0 and 20, and the window is [2, 4]. -/
theorem zero_day_window_witness :
    daily_crossing_accepted 2 4 [(0, true), (20, true)] (1/2) = true ∧
      periodic_crossing_accepted 4 2 [(0, true), (20, true)] (1/2) = false :=
  zero_day_window_daily_accepts_periodic_rejects 2 4
    [(0, true), (20, true)] (1/2) (by decide)

/-- Counterexample to C6 as stated: for the window [2, 4] containing
zero daily rows, `check_ma_conditions_for_period` returns
`conditions_met = False` and the periodic filter path rejects the
candidate instead of accepting it by default. -/
theorem zero_day_window_periodic_rejects :
    check_ma_conditions_for_period 4 2 [(0, true), (20, true)] (1/2) =
        (false, 0, 0, 0) ∧
      periodic_crossing_accepted 4 2 [(0, true), (20, true)] (1/2) = false := by
  constructor
  · rfl
  · rfl

/-!
## C7: periodic crossing predicate
-/

/-- Counterexample to C7 as stated: a series whose NaN cleaning leaves a
single aggregated candle with `Open = 105`, `Close = 95`, `MA = 100` —
the candle satisfies `Open >= MA and Close < MA`, yet
`detect_price_crossing_down_period` flags nothing because of the
`len(clean_data) < 2` guard (crossing_detection.py line 70). -/
theorem detect_period_singleton_not_flagged :
    clean_candles [⟨0, some 105, some 95, some 100⟩] = [⟨0, 105, 95, 100⟩] ∧
      detect_price_crossing_down_period [⟨0, some 105, some 95, some 100⟩] = [] ∧
      ((100 : ℚ) ≤ 105 ∧ (95 : ℚ) < 100) := by
  refine ⟨rfl, rfl, by norm_num⟩

/-- C7, corrected.  Provided the cleaned series keeps at least two
candles (the guard of crossing_detection.py line 70) and clean dates are
unique, a clean candle's date is flagged iff `Open >= MA` and
`Close < MA` at that candle. -/
theorem detect_period_flagged_iff (rows : List PeriodCandle)
    (h2 : 2 ≤ (clean_candles rows).length)
    (hnd : ((clean_candles rows).map CleanCandle.date).Nodup)
    (q : CleanCandle) (hq : q ∈ clean_candles rows) :
    q.date ∈ detect_price_crossing_down_period rows ↔
      (q.ma ≤ q.open_ ∧ q.close < q.ma) := by
  unfold detect_price_crossing_down_period
  rw [if_neg (by omega)]
  constructor
  · intro hmem
    rcases List.mem_map.1 hmem with ⟨q', hq', hdq⟩
    rcases List.mem_filter.1 hq' with ⟨hq'mem, hq'p⟩
    have : q' = q := List.inj_on_of_nodup_map hnd hq'mem hq hdq
    subst this
    simpa using hq'p
  · intro hcond
    refine List.mem_map.2 ⟨q, List.mem_filter.2 ⟨hq, ?_⟩, rfl⟩
    simpa using hcond

/-- Witness for `detect_period_flagged_iff`: the two-candle quarterly
scenario (`Open=105, Close=95` then `Open=95, Close=90` against
`MA=100`) flags exactly the first candle's date. -/
theorem detect_period_flagged_iff_witness :
    detect_price_crossing_down_period
        [⟨0, some 105, some 95, some 100⟩, ⟨1, some 95, some 90, some 100⟩] =
        [0] ∧
      ((⟨0, 105, 95, 100⟩ : CleanCandle).date ∈
          detect_price_crossing_down_period
            [⟨0, some 105, some 95, some 100⟩, ⟨1, some 95, some 90, some 100⟩] ↔
        ((⟨0, 105, 95, 100⟩ : CleanCandle).ma ≤
            (⟨0, 105, 95, 100⟩ : CleanCandle).open_ ∧
          (⟨0, 105, 95, 100⟩ : CleanCandle).close <
            (⟨0, 105, 95, 100⟩ : CleanCandle).ma)) :=
  ⟨by decide,
   detect_period_flagged_iff
     [⟨0, some 105, some 95, some 100⟩, ⟨1, some 95, some 90, some 100⟩]
     (by decide) (by decide) ⟨0, 105, 95, 100⟩ (by decide)⟩

/-!
## C8: malformed series are processed silently
-/

/-- Counterexample to C8 as stated: the core contains no validation and
no `MalformedSeriesError` (zones.py raises nothing; app.py lines 499-502
silently clean the input with `dropna`): on a series with a duplicated
date the identifier runs to completion and returns a normal zone list
instead of raising. -/
theorem duplicate_dates_processed_silently :
    identify_entry_zones_with_conditions ⟨1, false⟩
        [⟨5, true, true, false⟩, ⟨5, true, true, true⟩] [5] =
      [⟨5, 5, [5], 5, true⟩] := by decide

/-- C8, corrected.  No error path exists in the core: a series with
non-monotonic dates is likewise processed by the same single pass and
yields a full (non-error) zone list. -/
theorem non_monotonic_dates_processed_silently :
    identify_entry_zones_with_conditions ⟨1, false⟩
        [⟨10, true, true, false⟩, ⟨3, true, true, true⟩] [3] =
      [⟨3, 3, [3], 3, true⟩] := by decide

/-!
## Characterization of the three phases of one loop iteration
-/

theorem entryStep_of_open {crossing_dates : List Nat} {s : MachineState}
    {r : Row} {oz : OpenZone} (h : s.open_zone = some oz) :
    entryStep crossing_dates s r = s := by
  unfold entryStep; rw [h]

theorem entryStep_of_no_crossing {crossing_dates : List Nat}
    {s : MachineState} {r : Row} (h : s.open_zone = none)
    (hf : find_current_crossing crossing_dates s.processed_crossings r.date =
      none) : entryStep crossing_dates s r = s := by
  unfold entryStep; rw [h, hf]

theorem entryStep_of_no_guard {crossing_dates : List Nat} {s : MachineState}
    {r : Row} {c : Nat} (h : s.open_zone = none)
    (hf : find_current_crossing crossing_dates s.processed_crossings r.date =
      some c) (hg : (r.below && r.cond) = false) :
    entryStep crossing_dates s r = s := by
  unfold entryStep; rw [h, hf, hg]; rfl

theorem entryStep_fires {crossing_dates : List Nat} {s : MachineState}
    {r : Row} {c : Nat} (h : s.open_zone = none)
    (hf : find_current_crossing crossing_dates s.processed_crossings r.date =
      some c) (hg : (r.below && r.cond) = true) :
    entryStep crossing_dates s r =
      { s with open_zone := some ⟨c, c, []⟩,
               processed_crossings := s.processed_crossings.insert c } := by
  unfold entryStep; rw [h, hf, hg]; rfl

theorem reentryStep_of_none {m : Nat} {s : MachineState} {r : Row}
    (h : s.open_zone = none) : reentryStep m s r = s := by
  unfold reentryStep; rw [h]

theorem reentryStep_of_no_signal {m : Nat} {s : MachineState} {r : Row}
    {oz : OpenZone} (h : s.open_zone = some oz) (hre : r.reentry = false) :
    reentryStep m s r = s := by
  unfold reentryStep; rw [h, hre]; rfl

theorem reentryStep_green {m : Nat} {s : MachineState} {r : Row}
    {oz : OpenZone} (h : s.open_zone = some oz) (hre : r.reentry = true)
    (hmax : m ≤ oz.zone_reentry_signals.length + 1) :
    reentryStep m s r =
      { s with green_zones := s.green_zones ++
                 [⟨oz.zone_exit_signal, oz.zone_start,
                   oz.zone_reentry_signals ++ [r.date], r.date, true⟩],
               open_zone := none } := by
  unfold reentryStep; rw [h, hre]
  simp only [if_true]
  rw [if_pos (by simpa using hmax)]

theorem reentryStep_collect {m : Nat} {s : MachineState} {r : Row}
    {oz : OpenZone} (h : s.open_zone = some oz) (hre : r.reentry = true)
    (hmax : ¬ m ≤ oz.zone_reentry_signals.length + 1) :
    reentryStep m s r =
      { s with open_zone := some ⟨oz.zone_start, oz.zone_exit_signal,
                 oz.zone_reentry_signals ++ [r.date]⟩ } := by
  unfold reentryStep; rw [h, hre]
  simp only [if_true]
  rw [if_neg (by simpa using hmax)]

theorem aboveMAStep_of_none {re : Bool} {prev : Option Nat}
    {s : MachineState} {r : Row} (h : s.open_zone = none) :
    aboveMAStep re prev s r = s := by
  unfold aboveMAStep; rw [h]

theorem aboveMAStep_of_below {re : Bool} {prev : Option Nat}
    {s : MachineState} {r : Row} {oz : OpenZone} (h : s.open_zone = some oz)
    (hb : r.below = true) : aboveMAStep re prev s r = s := by
  unfold aboveMAStep; rw [h, hb]; rfl

theorem aboveMAStep_fires {re : Bool} {prev : Option Nat} {s : MachineState}
    {r : Row} {oz : OpenZone} (h : s.open_zone = some oz)
    (hb : r.below = false) :
    aboveMAStep re prev s r =
      { s with orange_zones := s.orange_zones ++
                 [⟨oz.zone_exit_signal, oz.zone_start,
                   oz.zone_reentry_signals, prev.getD r.date, false⟩],
               open_zone := none,
               processed_crossings :=
                 if re then s.processed_crossings
                 else s.processed_crossings.erase oz.zone_exit_signal } := by
  unfold aboveMAStep; rw [h, hb]; rfl

/-!
## C5: classification invariant
-/

/-- Invariant for claim C5: every emitted green zone is completed with
at least `m` re-entry signals, every emitted orange zone is not
completed with fewer than `m` signals, and an open zone always has
fewer than `m` signals collected. -/
def ZoneCountInv (m : Nat) (s : MachineState) : Prop :=
  (∀ z ∈ s.green_zones, z.completed = true ∧ m ≤ z.reentry_signals.length) ∧
  (∀ z ∈ s.orange_zones, z.completed = false ∧ z.reentry_signals.length < m) ∧
  (∀ oz, s.open_zone = some oz → oz.zone_reentry_signals.length < m)

theorem zoneStep_count_inv (cfg : ZoneConfig) (crossing_dates : List Nat)
    (prev : Option Nat) (s : MachineState) (r : Row)
    (hm : 1 ≤ cfg.max_reentry_signals)
    (h : ZoneCountInv cfg.max_reentry_signals s) :
    ZoneCountInv cfg.max_reentry_signals (zoneStep cfg crossing_dates prev s r) := by
  obtain ⟨hg, ho, hoz⟩ := h
  unfold zoneStep
  cases hopen : s.open_zone with
  | none =>
    cases hf : find_current_crossing crossing_dates s.processed_crossings r.date with
    | none =>
      rw [entryStep_of_no_crossing hopen hf, reentryStep_of_none hopen,
        aboveMAStep_of_none hopen]
      exact ⟨hg, ho, hoz⟩
    | some c =>
      by_cases hgd : (r.below && r.cond) = true
      · have hbelow : r.below = true := by
          have hgd2 := hgd
          simp only [Bool.and_eq_true] at hgd2
          exact hgd2.1
        rw [entryStep_fires hopen hf hgd]
        by_cases hre : r.reentry = true
        · by_cases hmax :
            cfg.max_reentry_signals ≤ ([] : List Nat).length + 1
          · rw [reentryStep_green rfl hre hmax, aboveMAStep_of_none rfl]
            refine ⟨?_, ho, by intro oz hoz'; cases hoz'⟩
            intro z hz
            rcases List.mem_append.1 hz with hz | hz
            · exact hg z hz
            · rw [List.mem_singleton] at hz; subst hz
              exact ⟨rfl, by simpa using hmax⟩
          · rw [reentryStep_collect rfl hre hmax,
              aboveMAStep_of_below rfl hbelow]
            refine ⟨hg, ho, ?_⟩
            intro oz hoz'
            obtain rfl : (⟨c, c, [] ++ [r.date]⟩ : OpenZone) = oz := by
              injection hoz'
            simpa using lt_of_not_le hmax
        · have hre' : r.reentry = false := by
            revert hre; cases r.reentry <;> simp
          rw [reentryStep_of_no_signal rfl hre',
            aboveMAStep_of_below rfl hbelow]
          refine ⟨hg, ho, ?_⟩
          intro oz hoz'
          obtain rfl : (⟨c, c, []⟩ : OpenZone) = oz := by injection hoz'
          simpa using hm
      · have hgd' : (r.below && r.cond) = false := by
          revert hgd; cases (r.below && r.cond) <;> simp
        rw [entryStep_of_no_guard hopen hf hgd', reentryStep_of_none hopen,
          aboveMAStep_of_none hopen]
        exact ⟨hg, ho, hoz⟩
  | some oz =>
    rw [entryStep_of_open hopen]
    have hozlen := hoz oz hopen
    by_cases hre : r.reentry = true
    · by_cases hmax : cfg.max_reentry_signals ≤ oz.zone_reentry_signals.length + 1
      · rw [reentryStep_green hopen hre hmax, aboveMAStep_of_none rfl]
        refine ⟨?_, ho, by intro oz' hoz'; cases hoz'⟩
        intro z hz
        rcases List.mem_append.1 hz with hz | hz
        · exact hg z hz
        · rw [List.mem_singleton] at hz; subst hz
          exact ⟨rfl, by simpa using hmax⟩
      · rw [reentryStep_collect hopen hre hmax]
        by_cases hb : r.below = true
        · rw [aboveMAStep_of_below rfl hb]
          refine ⟨hg, ho, ?_⟩
          intro oz' hoz'
          obtain rfl :
              (⟨oz.zone_start, oz.zone_exit_signal,
                oz.zone_reentry_signals ++ [r.date]⟩ : OpenZone) = oz' := by
            injection hoz'
          simpa using lt_of_not_le hmax
        · have hb' : r.below = false := by revert hb; cases r.below <;> simp
          rw [aboveMAStep_fires rfl hb']
          refine ⟨hg, ?_, by intro oz' hoz'; cases hoz'⟩
          intro z hz
          rcases List.mem_append.1 hz with hz | hz
          · exact ho z hz
          · rw [List.mem_singleton] at hz; subst hz
            exact ⟨rfl, by simpa using lt_of_not_le hmax⟩
    · have hre' : r.reentry = false := by revert hre; cases r.reentry <;> simp
      rw [reentryStep_of_no_signal hopen hre']
      by_cases hb : r.below = true
      · rw [aboveMAStep_of_below hopen hb]
        exact ⟨hg, ho, hoz⟩
      · have hb' : r.below = false := by revert hb; cases r.below <;> simp
        rw [aboveMAStep_fires hopen hb']
        refine ⟨hg, ?_, by intro oz' hoz'; cases hoz'⟩
        intro z hz
        rcases List.mem_append.1 hz with hz | hz
        · exact ho z hz
        · rw [List.mem_singleton] at hz; subst hz
          exact ⟨rfl, hozlen⟩

theorem zoneLoop_count_inv (cfg : ZoneConfig) (crossing_dates : List Nat)
    (hm : 1 ≤ cfg.max_reentry_signals) :
    ∀ (rows : List Row) (prev : Option Nat) (s : MachineState),
      ZoneCountInv cfg.max_reentry_signals s →
      ZoneCountInv cfg.max_reentry_signals
        (zoneLoop cfg crossing_dates prev s rows) := by
  intro rows
  induction rows with
  | nil => intro prev s h; exact h
  | cons r rs ih =>
    intro prev s h
    exact ih (some r.date) _ (zoneStep_count_inv cfg crossing_dates prev s r hm h)

theorem zoneFinalize_of_none {m last_date : Nat} {s : MachineState}
    (h : s.open_zone = none) : zoneFinalize m last_date s = s := by
  unfold zoneFinalize; rw [h]

theorem zoneFinalize_green {m last_date : Nat} {s : MachineState}
    {oz : OpenZone} (h : s.open_zone = some oz)
    (hmax : m ≤ oz.zone_reentry_signals.length) :
    zoneFinalize m last_date s =
      { s with green_zones := s.green_zones ++
                 [⟨oz.zone_exit_signal, oz.zone_start,
                   oz.zone_reentry_signals, last_date, true⟩],
               open_zone := none } := by
  unfold zoneFinalize; rw [h]; exact if_pos hmax

theorem zoneFinalize_orange {m last_date : Nat} {s : MachineState}
    {oz : OpenZone} (h : s.open_zone = some oz)
    (hmax : ¬ m ≤ oz.zone_reentry_signals.length) :
    zoneFinalize m last_date s =
      { s with orange_zones := s.orange_zones ++
                 [⟨oz.zone_exit_signal, oz.zone_start,
                   oz.zone_reentry_signals, last_date, false⟩],
               open_zone := none } := by
  unfold zoneFinalize; rw [h]; exact if_neg hmax

theorem zoneFinalize_count_inv (m last_date : Nat) (s : MachineState)
    (h : ZoneCountInv m s) : ZoneCountInv m (zoneFinalize m last_date s) := by
  obtain ⟨hg, ho, hoz⟩ := h
  cases hopen : s.open_zone with
  | none =>
    rw [zoneFinalize_of_none hopen]
    exact ⟨hg, ho, hoz⟩
  | some oz =>
    by_cases hmax : m ≤ oz.zone_reentry_signals.length
    · rw [zoneFinalize_green hopen hmax]
      refine ⟨?_, ho, by intro oz' hoz'; cases hoz'⟩
      intro z hz
      rcases List.mem_append.1 hz with hz | hz
      · exact hg z hz
      · rw [List.mem_singleton] at hz; subst hz
        exact ⟨rfl, hmax⟩
    · rw [zoneFinalize_orange hopen hmax]
      refine ⟨hg, ?_, by intro oz' hoz'; cases hoz'⟩
      intro z hz
      rcases List.mem_append.1 hz with hz | hz
      · exact ho z hz
      · rw [List.mem_singleton] at hz; subst hz
        exact ⟨rfl, lt_of_not_le hmax⟩

theorem mem_insertZoneByStart {z w : Zone} {l : List Zone} :
    w ∈ insertZoneByStart z l ↔ w = z ∨ w ∈ l := by
  induction l with
  | nil => simp [insertZoneByStart]
  | cons a t ih =>
    unfold insertZoneByStart
    by_cases hle : z.start ≤ a.start
    · rw [if_pos hle]
      simp [List.mem_cons]
    · rw [if_neg hle]
      simp only [List.mem_cons, ih]
      tauto

theorem mem_sortZonesByStart {w : Zone} {l : List Zone} :
    w ∈ sortZonesByStart l ↔ w ∈ l := by
  induction l with
  | nil => simp [sortZonesByStart]
  | cons a t ih =>
    unfold sortZonesByStart
    rw [mem_insertZoneByStart, ih, List.mem_cons]

/-- C5, corrected: the classification iff holds for every zone of a run
provided `max_reentry_signals ≥ 1` (for `max_reentry_signals = 0` the
code emits orange zones whose signal count already meets the threshold —
see the counterexample).  Every zone of the output satisfies
`completed = true ↔ len(reentry_signals) ≥ max` and
`completed = false ↔ len(reentry_signals) < max`. -/
theorem zone_completed_iff_signal_count (cfg : ZoneConfig) (rows : List Row)
    (crossing_dates : List Nat) (hm : 1 ≤ cfg.max_reentry_signals) :
    ∀ z ∈ identify_entry_zones_with_conditions cfg rows crossing_dates,
      (z.completed = true ↔
        cfg.max_reentry_signals ≤ z.reentry_signals.length) ∧
      (z.completed = false ↔
        z.reentry_signals.length < cfg.max_reentry_signals) := by
  intro z hz
  unfold identify_entry_zones_with_conditions at hz
  rw [mem_sortZonesByStart] at hz
  have hbase : ZoneCountInv cfg.max_reentry_signals initialState :=
    ⟨fun z hz' => absurd hz' (List.not_mem_nil z),
     fun z hz' => absurd hz' (List.not_mem_nil z),
     fun _ hoz' => Option.noConfusion hoz'⟩
  have hloop := zoneLoop_count_inv cfg crossing_dates hm rows none
    initialState hbase
  have hfin : ZoneCountInv cfg.max_reentry_signals
      (match rows.getLast? with
       | some rl => zoneFinalize cfg.max_reentry_signals rl.date
           (zoneLoop cfg crossing_dates none initialState rows)
       | none => zoneLoop cfg crossing_dates none initialState rows) := by
    cases hlast : rows.getLast? with
    | none => exact hloop
    | some rl => exact zoneFinalize_count_inv _ rl.date _ hloop
  obtain ⟨hg, ho, _⟩ := hfin
  rcases List.mem_append.1 hz with hz | hz
  · obtain ⟨hc, hlen⟩ := hg z hz
    constructor
    · exact ⟨fun _ => hlen, fun _ => hc⟩
    · constructor
      · intro hfalse; rw [hc] at hfalse; cases hfalse
      · intro hlt; exact absurd hlen (not_le_of_lt hlt)
  · obtain ⟨hc, hlen⟩ := ho z hz
    constructor
    · constructor
      · intro htrue; rw [hc] at htrue; cases htrue
      · intro hle; exact absurd hle (not_le_of_lt hlen)
    · exact ⟨fun _ => hlen, fun _ => hc⟩

/-- Witness for `zone_completed_iff_signal_count`: a two-zone run with
`max_reentry_signals = 1`, instantiated at its green zone. -/
theorem zone_completed_iff_signal_count_witness :
    (⟨0, 0, [1], 1, true⟩ : Zone) ∈
        identify_entry_zones_with_conditions ⟨1, false⟩
          [⟨0, true, true, false⟩, ⟨1, true, true, true⟩] [0] ∧
      (((⟨0, 0, [1], 1, true⟩ : Zone).completed = true ↔
          1 ≤ (⟨0, 0, [1], 1, true⟩ : Zone).reentry_signals.length) ∧
        ((⟨0, 0, [1], 1, true⟩ : Zone).completed = false ↔
          (⟨0, 0, [1], 1, true⟩ : Zone).reentry_signals.length < 1)) :=
  ⟨by decide,
   zone_completed_iff_signal_count ⟨1, false⟩
     [⟨0, true, true, false⟩, ⟨1, true, true, true⟩] [0] (by decide)
     ⟨0, 0, [1], 1, true⟩ (by decide)⟩

/-- Counterexample to C5 as stated: with `max_reentry_signals = 0` (the
configuration is an arbitrary externally supplied integer), a zone
opened at date 0 and closed orange at date 1 has `completed = false`
with `len(reentry_signals) = 0 >= max_reentry_signals = 0`, so
"completed=false iff len(reentry_signals) < max_reentry_signals"
fails. -/
theorem zone_completed_iff_fails_at_zero_threshold :
    identify_entry_zones_with_conditions ⟨0, false⟩
        [⟨0, true, true, false⟩, ⟨1, false, false, false⟩] [0] =
      [⟨0, 0, [], 0, false⟩] ∧
      (⟨0, 0, [], 0, false⟩ : Zone).completed = false ∧
      (0 : Nat) ≤ (⟨0, 0, [], 0, false⟩ : Zone).reentry_signals.length := by
  decide

/-!
## The master invariant of the single pass

`ZoneInv crossing_dates s prev` holds after processing a prefix of the
rows whose last date is `prev` (`none` before the first row), provided
the row dates are strictly increasing and the crossing-date list is
strictly ascending.  `W` is a watermark: every crossing date strictly
below it is consumed, every emitted zone starts at or below it, and an
open zone starts exactly at it.
-/

def ZoneInv (crossing_dates : List Nat) (s : MachineState)
    (prev : Option Nat) : Prop :=
  (∀ z ∈ allZones s, z.start ≤ z.end_) ∧
  (∀ z ∈ allZones s, ∃ p, prev = some p ∧ z.end_ ≤ p) ∧
  (∀ z ∈ allZones s, ∀ w ∈ allZones s, z.start < w.start → z.end_ < w.end_) ∧
  s.processed_crossings.Nodup ∧
  (∃ W, (∀ d ∈ crossing_dates, d < W → d ∈ s.processed_crossings) ∧
        (∀ z ∈ allZones s, z.start ≤ W) ∧
        (∀ oz, s.open_zone = some oz → oz.zone_start = W)) ∧
  (∀ oz, s.open_zone = some oz →
     oz.zone_exit_signal = oz.zone_start ∧
     oz.zone_exit_signal ∈ crossing_dates ∧
     ∃ e p, prev = some p ∧ oz.zone_start ≤ e ∧ e ≤ p ∧
       ∀ z ∈ allZones s, z.end_ < e)

theorem ZoneInv_mk_closed {crossing_dates : List Nat} {s : MachineState}
    {d W : Nat} (hopen : s.open_zone = none)
    (hnd : s.processed_crossings.Nodup)
    (hcov : ∀ a ∈ crossing_dates, a < W → a ∈ s.processed_crossings)
    (hse : ∀ z ∈ allZones s, z.start ≤ z.end_)
    (hend : ∀ z ∈ allZones s, z.end_ ≤ d)
    (hstart : ∀ z ∈ allZones s, z.start ≤ W)
    (hpw : ∀ z ∈ allZones s, ∀ w ∈ allZones s,
      z.start < w.start → z.end_ < w.end_) :
    ZoneInv crossing_dates s (some d) :=
  ⟨hse, fun z hz => ⟨d, rfl, hend z hz⟩, hpw, hnd,
   ⟨W, hcov, hstart, fun _ h => Option.noConfusion (hopen ▸ h)⟩,
   fun _ h => Option.noConfusion (hopen ▸ h)⟩

theorem ZoneInv_mk_open {crossing_dates : List Nat} {s : MachineState}
    {d W e : Nat} {oz : OpenZone} (hopen : s.open_zone = some oz)
    (hnd : s.processed_crossings.Nodup)
    (hcov : ∀ a ∈ crossing_dates, a < W → a ∈ s.processed_crossings)
    (hse : ∀ z ∈ allZones s, z.start ≤ z.end_)
    (hend : ∀ z ∈ allZones s, z.end_ ≤ d)
    (hstart : ∀ z ∈ allZones s, z.start ≤ W)
    (hpw : ∀ z ∈ allZones s, ∀ w ∈ allZones s,
      z.start < w.start → z.end_ < w.end_)
    (hozW : oz.zone_start = W)
    (hes : oz.zone_exit_signal = oz.zone_start)
    (hmem : oz.zone_exit_signal ∈ crossing_dates)
    (hsle : oz.zone_start ≤ e) (hed : e ≤ d)
    (hends : ∀ z ∈ allZones s, z.end_ < e) :
    ZoneInv crossing_dates s (some d) :=
  ⟨hse, fun z hz => ⟨d, rfl, hend z hz⟩, hpw, hnd,
   ⟨W, hcov, hstart, fun oz' h => by
      obtain rfl : oz = oz' := by rw [hopen] at h; injection h
      exact hozW⟩,
   fun oz' h => by
      obtain rfl : oz = oz' := by rw [hopen] at h; injection h
      exact ⟨hes, hmem, e, d, rfl, hsle, hed, hends⟩⟩

/-- Extending the pairwise start/end ordering by a newly closed zone
whose start is an upper bound of all previous starts and whose end is a
strict upper bound of all previous ends. -/
theorem pairwise_zone_extend {S : List Zone} {nz : Zone}
    (hpw : ∀ z ∈ S, ∀ w ∈ S, z.start < w.start → z.end_ < w.end_)
    (h1 : ∀ z ∈ S, z.start ≤ nz.start)
    (h2 : ∀ z ∈ S, z.end_ < nz.end_) :
    ∀ z, (z ∈ S ∨ z = nz) → ∀ w, (w ∈ S ∨ w = nz) →
      z.start < w.start → z.end_ < w.end_ := by
  rintro z (hz | rfl) w (hw | rfl) hlt
  · exact hpw z hz w hw hlt
  · exact h2 z hz
  · exact absurd hlt (not_lt_of_le (h1 w hw))
  · exact absurd hlt (lt_irrefl _)

theorem mem_green_append {G O : List Zone} {nz z : Zone} :
    z ∈ (G ++ [nz]) ++ O ↔ (z ∈ G ++ O ∨ z = nz) := by
  simp only [List.mem_append, List.mem_singleton]
  tauto

theorem mem_orange_append {G O : List Zone} {nz z : Zone} :
    z ∈ G ++ (O ++ [nz]) ↔ (z ∈ G ++ O ∨ z = nz) := by
  simp only [List.mem_append, List.mem_singleton]
  tauto

theorem zoneStep_zone_inv (cfg : ZoneConfig) (crossing_dates : List Nat)
    (prev : Option Nat) (s : MachineState) (r : Row)
    (hsort : crossing_dates.Pairwise (· < ·))
    (hprev : ∀ p, prev = some p → p < r.date)
    (hinv : ZoneInv crossing_dates s prev) :
    ZoneInv crossing_dates (zoneStep cfg crossing_dates prev s r)
      (some r.date) := by
  obtain ⟨hse, hep, hpw, hnd, ⟨W, hWcov, hWstart, hWopen⟩, hoz⟩ := hinv
  have hend_lt : ∀ z ∈ allZones s, z.end_ < r.date := by
    intro z hz
    obtain ⟨p, hp, hle⟩ := hep z hz
    exact lt_of_le_of_lt hle (hprev p hp)
  have hend_le : ∀ z ∈ allZones s, z.end_ ≤ r.date :=
    fun z hz => le_of_lt (hend_lt z hz)
  unfold zoneStep
  cases hopen : s.open_zone with
  | none =>
    cases hf : find_current_crossing crossing_dates s.processed_crossings
        r.date with
    | none =>
      rw [entryStep_of_no_crossing hopen hf, reentryStep_of_none hopen,
        aboveMAStep_of_none hopen]
      exact ZoneInv_mk_closed hopen hnd hWcov hse hend_le hWstart hpw
    | some c =>
      obtain ⟨hcmem, hcle, hcnot⟩ := find_current_crossing_sound hf
      have hccov := find_current_crossing_earlier_processed hsort hf
      have hWle : W ≤ c := by
        by_contra hlt
        exact hcnot (hWcov c hcmem (lt_of_not_le hlt))
      by_cases hgd : (r.below && r.cond) = true
      · have hbelow : r.below = true := by
          have hgd2 := hgd
          simp only [Bool.and_eq_true] at hgd2
          exact hgd2.1
        rw [entryStep_fires hopen hf hgd]
        have hnd1 : (s.processed_crossings.insert c).Nodup := hnd.insert
        have hcov1 : ∀ a ∈ crossing_dates, a < c →
            a ∈ s.processed_crossings.insert c :=
          fun a ha hlt => List.mem_insert_of_mem (hccov a ha hlt)
        have hstart1 : ∀ z ∈ allZones s, z.start ≤ c :=
          fun z hz => le_trans (hWstart z hz) hWle
        by_cases hre : r.reentry = true
        · by_cases hmax :
            cfg.max_reentry_signals ≤ ([] : List Nat).length + 1
          · rw [reentryStep_green rfl hre hmax,
              aboveMAStep_of_none rfl]
            refine ZoneInv_mk_closed rfl hnd1 hcov1 ?_ ?_ ?_ ?_
            · intro z hz
              rcases mem_green_append.1 hz with hz | rfl
              · exact hse z hz
              · exact hcle
            · intro z hz
              rcases mem_green_append.1 hz with hz | rfl
              · exact hend_le z hz
              · exact le_refl _
            · intro z hz
              rcases mem_green_append.1 hz with hz | rfl
              · exact hstart1 z hz
              · exact le_refl _
            · intro z hz w hw hlt
              exact pairwise_zone_extend hpw hstart1 hend_lt z
                (mem_green_append.1 hz) w (mem_green_append.1 hw) hlt
          · rw [reentryStep_collect rfl hre hmax,
              aboveMAStep_of_below rfl hbelow]
            exact ZoneInv_mk_open rfl hnd1 hcov1 hse
              hend_le hstart1 hpw rfl rfl hcmem hcle (le_refl _) hend_lt
        · have hre' : r.reentry = false := by
            revert hre; cases r.reentry <;> simp
          rw [reentryStep_of_no_signal rfl hre',
            aboveMAStep_of_below rfl hbelow]
          exact ZoneInv_mk_open rfl hnd1 hcov1 hse
            hend_le hstart1 hpw rfl rfl hcmem hcle (le_refl _) hend_lt
      · have hgd' : (r.below && r.cond) = false := by
          revert hgd; cases (r.below && r.cond) <;> simp
        rw [entryStep_of_no_guard hopen hf hgd', reentryStep_of_none hopen,
          aboveMAStep_of_none hopen]
        exact ZoneInv_mk_closed hopen hnd hWcov hse hend_le hWstart hpw
  | some oz =>
    rw [entryStep_of_open hopen]
    obtain ⟨hes, hcmem, e, p0, hp0, hsle, hep0, hends⟩ := hoz oz hopen
    have hWoz : oz.zone_start = W := hWopen oz hopen
    have hp0d : p0 < r.date := hprev p0 hp0
    have hgetd : prev.getD r.date = p0 := by rw [hp0]; rfl
    have hstart1 : ∀ z ∈ allZones s, z.start ≤ oz.zone_start := by
      intro z hz; rw [hWoz]; exact hWstart z hz
    have hnd_if : (if cfg.reenter_after_orange then s.processed_crossings
        else s.processed_crossings.erase oz.zone_exit_signal).Nodup := by
      split
      · exact hnd
      · exact hnd.erase _
    have hcov_if : ∀ a ∈ crossing_dates, a < W →
        a ∈ (if cfg.reenter_after_orange then s.processed_crossings
          else s.processed_crossings.erase oz.zone_exit_signal) := by
      intro a ha hlt
      split
      · exact hWcov a ha hlt
      · have hne : a ≠ oz.zone_exit_signal := by
          rw [hes, hWoz]; exact ne_of_lt hlt
        exact (List.mem_erase_of_ne hne).2 (hWcov a ha hlt)
    by_cases hre : r.reentry = true
    · by_cases hmax :
        cfg.max_reentry_signals ≤ oz.zone_reentry_signals.length + 1
      · rw [reentryStep_green hopen hre hmax, aboveMAStep_of_none rfl]
        refine ZoneInv_mk_closed rfl hnd hWcov ?_ ?_ ?_ ?_
        · intro z hz
          rcases mem_green_append.1 hz with hz | rfl
          · exact hse z hz
          · exact le_trans hsle (le_trans hep0 (le_of_lt hp0d))
        · intro z hz
          rcases mem_green_append.1 hz with hz | rfl
          · exact hend_le z hz
          · exact le_refl _
        · intro z hz
          rcases mem_green_append.1 hz with hz | rfl
          · exact hWstart z hz
          · exact le_of_eq hWoz
        · intro z hz w hw hlt
          exact pairwise_zone_extend hpw hstart1 hend_lt z
            (mem_green_append.1 hz) w (mem_green_append.1 hw) hlt
      · rw [reentryStep_collect hopen hre hmax]
        by_cases hb : r.below = true
        · rw [aboveMAStep_of_below rfl hb]
          exact ZoneInv_mk_open rfl hnd hWcov hse hend_le
            hWstart hpw hWoz hes hcmem hsle
            (le_trans hep0 (le_of_lt hp0d)) hends
        · have hb' : r.below = false := by
            revert hb; cases r.below <;> simp
          rw [aboveMAStep_fires rfl hb']
          refine ZoneInv_mk_closed rfl hnd_if hcov_if ?_ ?_ ?_ ?_
          · intro z hz
            rcases mem_orange_append.1 hz with hz | rfl
            · exact hse z hz
            · show oz.zone_start ≤ prev.getD r.date
              rw [hgetd]; exact le_trans hsle hep0
          · intro z hz
            rcases mem_orange_append.1 hz with hz | rfl
            · exact hend_le z hz
            · show prev.getD r.date ≤ r.date
              rw [hgetd]; exact le_of_lt hp0d
          · intro z hz
            rcases mem_orange_append.1 hz with hz | rfl
            · exact hWstart z hz
            · exact le_of_eq hWoz
          · intro z hz w hw hlt
            refine pairwise_zone_extend hpw hstart1 ?_ z
              (mem_orange_append.1 hz) w (mem_orange_append.1 hw) hlt
            intro z' hz'
            show z'.end_ < prev.getD r.date
            rw [hgetd]
            exact lt_of_lt_of_le (hends z' hz') hep0
    · have hre' : r.reentry = false := by
        revert hre; cases r.reentry <;> simp
      rw [reentryStep_of_no_signal hopen hre']
      by_cases hb : r.below = true
      · rw [aboveMAStep_of_below hopen hb]
        exact ZoneInv_mk_open hopen hnd hWcov hse hend_le
          hWstart hpw hWoz hes hcmem hsle
          (le_trans hep0 (le_of_lt hp0d)) hends
      · have hb' : r.below = false := by
          revert hb; cases r.below <;> simp
        rw [aboveMAStep_fires hopen hb']
        refine ZoneInv_mk_closed rfl hnd_if hcov_if ?_ ?_ ?_ ?_
        · intro z hz
          rcases mem_orange_append.1 hz with hz | rfl
          · exact hse z hz
          · show oz.zone_start ≤ prev.getD r.date
            rw [hgetd]; exact le_trans hsle hep0
        · intro z hz
          rcases mem_orange_append.1 hz with hz | rfl
          · exact hend_le z hz
          · show prev.getD r.date ≤ r.date
            rw [hgetd]; exact le_of_lt hp0d
        · intro z hz
          rcases mem_orange_append.1 hz with hz | rfl
          · exact hWstart z hz
          · exact le_of_eq hWoz
        · intro z hz w hw hlt
          refine pairwise_zone_extend hpw hstart1 ?_ z
            (mem_orange_append.1 hz) w (mem_orange_append.1 hw) hlt
          intro z' hz'
          show z'.end_ < prev.getD r.date
          rw [hgetd]
          exact lt_of_lt_of_le (hends z' hz') hep0

/-- Strict monotonicity of the row dates, relative to the date of the
last previously processed row (`none` before the first row).  This is
the `PricePoint` contract of the spec: strictly increasing dates. -/
def datesStrictMono : Option Nat → List Row → Prop
  | _, [] => True
  | none, r :: rs => datesStrictMono (some r.date) rs
  | some p, r :: rs => p < r.date ∧ datesStrictMono (some r.date) rs

/-- The date of the last row, defaulting to `prev` for an empty list. -/
def lastDate : Option Nat → List Row → Option Nat
  | prev, [] => prev
  | _, r :: rs => lastDate (some r.date) rs

theorem lastDate_eq_getLast :
    ∀ (rows : List Row) (prev : Option Nat) (rl : Row),
      rows.getLast? = some rl → lastDate prev rows = some rl.date := by
  intro rows
  induction rows with
  | nil => intro prev rl h; cases h
  | cons r rs ih =>
    intro prev rl h
    cases hrs : rs with
    | nil =>
      subst hrs
      rw [List.getLast?_singleton] at h
      obtain rfl : rl = r := by injection h with hh; exact hh.symm
      rfl
    | cons r2 rs2 =>
      subst hrs
      rw [List.getLast?_cons_cons] at h
      exact ih (some r.date) rl h

theorem zoneLoop_zone_inv (cfg : ZoneConfig) (crossing_dates : List Nat)
    (hsort : crossing_dates.Pairwise (· < ·)) :
    ∀ (rows : List Row) (prev : Option Nat) (s : MachineState),
      ZoneInv crossing_dates s prev → datesStrictMono prev rows →
      ZoneInv crossing_dates (zoneLoop cfg crossing_dates prev s rows)
        (lastDate prev rows) := by
  intro rows
  induction rows with
  | nil => intro prev s h _; exact h
  | cons r rs ih =>
    intro prev s h hmono
    have hprev : ∀ p, prev = some p → p < r.date := by
      cases prev with
      | none => intro p hp; cases hp
      | some p0 =>
        intro p hp
        obtain rfl : p0 = p := by injection hp
        exact hmono.1
    have hmono' : datesStrictMono (some r.date) rs := by
      cases prev with
      | none => exact hmono
      | some p0 => exact hmono.2
    exact ih (some r.date) _
      (zoneStep_zone_inv cfg crossing_dates prev s r hsort hprev h) hmono'

/-- The two invariant clauses that survive `zoneFinalize` and matter for
the output: every zone respects `start ≤ end`, and starts and ends are
ordered consistently across any zone pair. -/
theorem zoneFinalize_zone_inv (crossing_dates : List Nat) (m L : Nat)
    (s : MachineState) (h : ZoneInv crossing_dates s (some L)) :
    (∀ z ∈ allZones (zoneFinalize m L s), z.start ≤ z.end_) ∧
    (∀ z ∈ allZones (zoneFinalize m L s), ∀ w ∈ allZones (zoneFinalize m L s),
      z.start < w.start → z.end_ < w.end_) := by
  obtain ⟨hse, hep, hpw, hnd, ⟨W, hWcov, hWstart, hWopen⟩, hoz⟩ := h
  cases hopen : s.open_zone with
  | none =>
    rw [zoneFinalize_of_none hopen]
    exact ⟨hse, hpw⟩
  | some oz =>
    obtain ⟨hes, hcmem, e, p0, hp0, hsle, hep0, hends⟩ := hoz oz hopen
    obtain rfl : L = p0 := by injection hp0
    have hWoz : oz.zone_start = W := hWopen oz hopen
    have hstart1 : ∀ z ∈ allZones s, z.start ≤ oz.zone_start := by
      intro z hz; rw [hWoz]; exact hWstart z hz
    by_cases hmax : m ≤ oz.zone_reentry_signals.length
    · rw [zoneFinalize_green hopen hmax]
      constructor
      · intro z hz
        rcases mem_green_append.1 hz with hz | rfl
        · exact hse z hz
        · exact le_trans hsle hep0
      · intro z hz w hw hlt
        refine pairwise_zone_extend hpw hstart1 ?_ z
          (mem_green_append.1 hz) w (mem_green_append.1 hw) hlt
        intro z' hz'
        exact lt_of_lt_of_le (hends z' hz') hep0
    · rw [zoneFinalize_orange hopen hmax]
      constructor
      · intro z hz
        rcases mem_orange_append.1 hz with hz | rfl
        · exact hse z hz
        · exact le_trans hsle hep0
      · intro z hz w hw hlt
        refine pairwise_zone_extend hpw hstart1 ?_ z
          (mem_orange_append.1 hz) w (mem_orange_append.1 hw) hlt
        intro z' hz'
        exact lt_of_lt_of_le (hends z' hz') hep0

theorem ZoneInv_initial (crossing_dates : List Nat) :
    ZoneInv crossing_dates initialState none :=
  ⟨fun z hz => absurd hz (List.not_mem_nil z),
   fun z hz => absurd hz (List.not_mem_nil z),
   fun z hz => absurd hz (List.not_mem_nil z),
   List.nodup_nil,
   ⟨0, fun a _ hlt => absurd hlt (Nat.not_lt_zero a),
    fun z hz => absurd hz (List.not_mem_nil z),
    fun _ h => Option.noConfusion h⟩,
   fun _ h => Option.noConfusion h⟩

/-- The two output-level invariants of a full run, for strictly
ascending crossing dates and strictly increasing row dates. -/
theorem identify_entry_zones_inv (cfg : ZoneConfig) (rows : List Row)
    (crossing_dates : List Nat)
    (hsort : crossing_dates.Pairwise (· < ·))
    (hmono : datesStrictMono none rows) :
    (∀ z ∈ identify_entry_zones_with_conditions cfg rows crossing_dates,
      z.start ≤ z.end_) ∧
    (∀ z ∈ identify_entry_zones_with_conditions cfg rows crossing_dates,
      ∀ w ∈ identify_entry_zones_with_conditions cfg rows crossing_dates,
        z.start < w.start → z.end_ < w.end_) := by
  have hloop := zoneLoop_zone_inv cfg crossing_dates hsort rows none
    initialState (ZoneInv_initial crossing_dates) hmono
  have hkey :
      (∀ z ∈ allZones (match rows.getLast? with
        | some rl => zoneFinalize cfg.max_reentry_signals rl.date
            (zoneLoop cfg crossing_dates none initialState rows)
        | none => zoneLoop cfg crossing_dates none initialState rows),
        z.start ≤ z.end_) ∧
      (∀ z ∈ allZones (match rows.getLast? with
        | some rl => zoneFinalize cfg.max_reentry_signals rl.date
            (zoneLoop cfg crossing_dates none initialState rows)
        | none => zoneLoop cfg crossing_dates none initialState rows),
        ∀ w ∈ allZones (match rows.getLast? with
          | some rl => zoneFinalize cfg.max_reentry_signals rl.date
              (zoneLoop cfg crossing_dates none initialState rows)
          | none => zoneLoop cfg crossing_dates none initialState rows),
          z.start < w.start → z.end_ < w.end_) := by
    cases hlast : rows.getLast? with
    | none => exact ⟨hloop.1, hloop.2.2.1⟩
    | some rl =>
      have hlastd : lastDate none rows = some rl.date :=
        lastDate_eq_getLast rows none rl hlast
      rw [hlastd] at hloop
      exact zoneFinalize_zone_inv crossing_dates cfg.max_reentry_signals
        rl.date _ hloop
  constructor
  · intro z hz
    unfold identify_entry_zones_with_conditions at hz
    rw [mem_sortZonesByStart] at hz
    exact hkey.1 z hz
  · intro z hz w hw
    unfold identify_entry_zones_with_conditions at hz hw
    rw [mem_sortZonesByStart] at hz hw
    exact hkey.2 z hz w hw

/-- C10, confirmed.  For a run on strictly increasing row dates with
strictly ascending crossing dates, every output zone satisfies
`start ≤ end`: the backdated `start` (the exit-signal date, which is at
or before the entry date) never exceeds the close date, for green
closes, orange closes (whose `end` is the previous date) and
end-of-series closes alike. -/
theorem zone_start_le_zone_end (cfg : ZoneConfig) (rows : List Row)
    (crossing_dates : List Nat)
    (hsort : crossing_dates.Pairwise (· < ·))
    (hmono : datesStrictMono none rows) :
    ∀ z ∈ identify_entry_zones_with_conditions cfg rows crossing_dates,
      z.start ≤ z.end_ :=
  (identify_entry_zones_inv cfg rows crossing_dates hsort hmono).1

/-- Witness for `zone_start_le_zone_end` at a concrete run. -/
theorem zone_start_le_zone_end_witness :
    (⟨0, 0, [2], 2, true⟩ : Zone) ∈
        identify_entry_zones_with_conditions ⟨1, false⟩
          [⟨0, true, true, false⟩, ⟨1, true, true, false⟩,
           ⟨2, true, true, true⟩, ⟨3, true, true, false⟩,
           ⟨4, true, true, true⟩] [0, 1] ∧
      (⟨0, 0, [2], 2, true⟩ : Zone).start ≤ (⟨0, 0, [2], 2, true⟩ : Zone).end_ :=
  ⟨by decide,
   zone_start_le_zone_end ⟨1, false⟩
     [⟨0, true, true, false⟩, ⟨1, true, true, false⟩,
      ⟨2, true, true, true⟩, ⟨3, true, true, false⟩,
      ⟨4, true, true, true⟩] [0, 1] (by decide)
     (by simp [datesStrictMono]) ⟨0, 0, [2], 2, true⟩ (by decide)⟩

/-- C2, corrected.  Zones of one run need NOT be disjoint in
`[start, end]` (see the counterexample: starts are backdated to
exit-signal dates, which can precede an earlier zone's close); what does
hold for every pair `(A, B)` with `A.start < B.start` is the strict
ordering of the closes, `A.end < B.end`. -/
theorem zone_pairs_end_ordered (cfg : ZoneConfig) (rows : List Row)
    (crossing_dates : List Nat)
    (hsort : crossing_dates.Pairwise (· < ·))
    (hmono : datesStrictMono none rows) :
    ∀ A ∈ identify_entry_zones_with_conditions cfg rows crossing_dates,
      ∀ B ∈ identify_entry_zones_with_conditions cfg rows crossing_dates,
        A.start < B.start → A.end_ < B.end_ :=
  (identify_entry_zones_inv cfg rows crossing_dates hsort hmono).2

/-- Witness for `zone_pairs_end_ordered` at a concrete run and pair. -/
theorem zone_pairs_end_ordered_witness :
    (⟨0, 0, [2], 2, true⟩ : Zone) ∈
        identify_entry_zones_with_conditions ⟨1, false⟩
          [⟨0, true, true, false⟩, ⟨1, true, true, false⟩,
           ⟨2, true, true, true⟩, ⟨3, true, true, false⟩,
           ⟨4, true, true, true⟩] [0, 1] ∧
      (⟨1, 1, [4], 4, true⟩ : Zone) ∈
        identify_entry_zones_with_conditions ⟨1, false⟩
          [⟨0, true, true, false⟩, ⟨1, true, true, false⟩,
           ⟨2, true, true, true⟩, ⟨3, true, true, false⟩,
           ⟨4, true, true, true⟩] [0, 1] ∧
      (⟨0, 0, [2], 2, true⟩ : Zone).end_ < (⟨1, 1, [4], 4, true⟩ : Zone).end_ :=
  ⟨by decide, by decide,
   zone_pairs_end_ordered ⟨1, false⟩
     [⟨0, true, true, false⟩, ⟨1, true, true, false⟩,
      ⟨2, true, true, true⟩, ⟨3, true, true, false⟩,
      ⟨4, true, true, true⟩] [0, 1] (by decide)
     (by simp [datesStrictMono]) ⟨0, 0, [2], 2, true⟩ (by decide)
     ⟨1, 1, [4], 4, true⟩ (by decide) (by decide)⟩

/-- Counterexample to C2 as stated: crossings at dates 0 and 1; the
first zone consumes crossing 0 and closes green at date 2; the second
zone then consumes the still-pending crossing 1, so its backdated start
(date 1) lies INSIDE the first zone's `[0, 2]` — the pair `(A, B)` has
`A.start < B.start` but not `A.end < B.start`. -/
theorem zones_can_overlap :
    identify_entry_zones_with_conditions ⟨1, false⟩
        [⟨0, true, true, false⟩, ⟨1, true, true, false⟩,
         ⟨2, true, true, true⟩, ⟨3, true, true, false⟩,
         ⟨4, true, true, true⟩] [0, 1] =
      [⟨0, 0, [2], 2, true⟩, ⟨1, 1, [4], 4, true⟩] ∧
      (⟨0, 0, [2], 2, true⟩ : Zone).start < (⟨1, 1, [4], 4, true⟩ : Zone).start ∧
      ¬ (⟨0, 0, [2], 2, true⟩ : Zone).end_ < (⟨1, 1, [4], 4, true⟩ : Zone).start := by
  decide

/-!
## C4: reuse of the exit signal after an orange close
-/

theorem find?_eq_some_of_sorted {p : Nat → Bool} :
    ∀ {l : List Nat} {c : Nat}, l.Pairwise (· < ·) → c ∈ l → p c = true →
      (∀ d ∈ l, d < c → p d = false) → l.find? p = some c := by
  intro l
  induction l with
  | nil => intro c _ hc _ _; exact absurd hc (List.not_mem_nil c)
  | cons a t ih =>
    intro c hs hc hpc hmin
    rcases List.mem_cons.1 hc with rfl | hct
    · rw [List.find?_cons_of_pos t hpc]
    · have hac : a < c := (List.pairwise_cons.1 hs).1 c hct
      have hpa : p a = false := hmin a (List.mem_cons_self a t) hac
      rw [List.find?_cons_of_neg t (by simp [hpa])]
      exact ih (List.pairwise_cons.1 hs).2 hct hpc
        (fun d hd => hmin d (List.mem_cons_of_mem a hd))

theorem crossing_pred_false_of_mem {l : List Nat} {d x : Nat}
    (hdmem : d ∈ l) : (decide (d ≤ x) && !(l.contains d)) = false := by
  cases hv : (decide (d ≤ x) && !(l.contains d)) with
  | false => rfl
  | true =>
    exfalso
    simp at hv
    exact hv.2 hdmem

theorem crossing_pred_true {l : List Nat} {d x : Nat} (h1 : d ≤ x)
    (h2 : d ∉ l) : (decide (d ≤ x) && !(l.contains d)) = true := by
  simp [h1, h2]

/-- While no zone is open and the entry guard (price below the MA AND
trend conditions) does not hold, the machine state does not change at
all (no entry, no re-entry collection, no orange close). -/
theorem zoneLoop_no_entry (cfg : ZoneConfig) (crossing_dates : List Nat) :
    ∀ (mid : List Row) (prev : Option Nat) (s : MachineState),
      s.open_zone = none → (∀ r' ∈ mid, (r'.below && r'.cond) = false) →
      zoneLoop cfg crossing_dates prev s mid = s := by
  intro mid
  induction mid with
  | nil => intro prev s _ _; rfl
  | cons r rs ih =>
    intro prev s h hm
    have hgd : (r.below && r.cond) = false := hm r (List.mem_cons_self r rs)
    have hstep : zoneStep cfg crossing_dates prev s r = s := by
      unfold zoneStep
      cases hf : find_current_crossing crossing_dates s.processed_crossings
          r.date with
      | none =>
        rw [entryStep_of_no_crossing h hf, reentryStep_of_none h,
          aboveMAStep_of_none h]
      | some c =>
        rw [entryStep_of_no_guard h hf hgd, reentryStep_of_none h,
          aboveMAStep_of_none h]
    show zoneLoop cfg crossing_dates (some r.date)
      (zoneStep cfg crossing_dates prev s r) rs = s
    rw [hstep]
    exact ih (some r.date) s h (fun r' hr' => hm r' (List.mem_cons_of_mem r hr'))

/-- C4, confirmed.  A zone is open with exit signal
`oz.zone_exit_signal`; at row `r` price is back above the MA and no
re-entry signal fires, so the zone closes orange; with
`reenter_after_orange = false` the exit signal is removed from the
consumed set (first conclusion).  After any stretch of rows at which the
entry guard (below-MA AND trend conditions) does not hold — during which
the state is unchanged — a row `rstar` at
which price is below the MA and the trend conditions hold re-enters: the
newly opened zone's `start` and `exit_signal` both equal the ORIGINAL
exit-signal date (second conclusion).  The hypotheses `hnd` and `hcov`
are the reachable-state invariants (`processed_crossings` is
duplicate-free, and every crossing date before the open zone's signal is
consumed), and `hcmem` records that the signal came from the crossing
list; all are facts of `ZoneInv` at the pre-close state. -/
theorem orange_close_reuses_exit_signal (cfg : ZoneConfig)
    (hra : cfg.reenter_after_orange = false) (crossing_dates : List Nat)
    (hsort : crossing_dates.Pairwise (· < ·)) (prev : Option Nat)
    (s : MachineState) (oz : OpenZone) (hopen : s.open_zone = some oz)
    (hnd : s.processed_crossings.Nodup)
    (hcmem : oz.zone_exit_signal ∈ crossing_dates)
    (hcov : ∀ a ∈ crossing_dates, a < oz.zone_exit_signal →
      a ∈ s.processed_crossings)
    (r : Row) (hb : r.below = false) (hre : r.reentry = false)
    (mid : List Row) (hmid : ∀ r' ∈ mid, (r'.below && r'.cond) = false)
    (rstar : Row) (hbs : rstar.below = true) (hcs : rstar.cond = true)
    (hres : rstar.reentry = false)
    (hds : oz.zone_exit_signal ≤ rstar.date)
    (prev2 prev3 : Option Nat) :
    oz.zone_exit_signal ∉
        (zoneStep cfg crossing_dates prev s r).processed_crossings ∧
      (zoneStep cfg crossing_dates prev3
          (zoneLoop cfg crossing_dates prev2
            (zoneStep cfg crossing_dates prev s r) mid)
          rstar).open_zone =
        some ⟨oz.zone_exit_signal, oz.zone_exit_signal, []⟩ := by
  have hs1 : zoneStep cfg crossing_dates prev s r =
      { s with
          orange_zones := s.orange_zones ++
            [⟨oz.zone_exit_signal, oz.zone_start, oz.zone_reentry_signals,
              prev.getD r.date, false⟩],
          open_zone := none,
          processed_crossings :=
            s.processed_crossings.erase oz.zone_exit_signal } := by
    unfold zoneStep
    rw [entryStep_of_open hopen, reentryStep_of_no_signal hopen hre,
      aboveMAStep_fires hopen hb, hra]
    rfl
  have hnot : oz.zone_exit_signal ∉
      s.processed_crossings.erase oz.zone_exit_signal := by
    intro hmem
    have := (List.Nodup.mem_erase_iff hnd).1 hmem
    exact this.1 rfl
  constructor
  · rw [hs1]
    exact hnot
  · rw [hs1, zoneLoop_no_entry cfg crossing_dates mid prev2 _ rfl hmid]
    have hfind : find_current_crossing crossing_dates
        (s.processed_crossings.erase oz.zone_exit_signal) rstar.date =
        some oz.zone_exit_signal := by
      unfold find_current_crossing
      refine find?_eq_some_of_sorted hsort hcmem
        (crossing_pred_true hds hnot) ?_
      intro d hd hdlt
      have hdp : d ∈ s.processed_crossings := hcov d hd hdlt
      have hdmem : d ∈ s.processed_crossings.erase oz.zone_exit_signal :=
        (List.mem_erase_of_ne (ne_of_lt hdlt)).2 hdp
      exact crossing_pred_false_of_mem hdmem
    have hgd : (rstar.below && rstar.cond) = true := by
      rw [hbs, hcs]; rfl
    unfold zoneStep
    rw [entryStep_fires rfl hfind hgd,
      reentryStep_of_no_signal rfl hres,
      aboveMAStep_of_below rfl hbs]

/-- Witness for `orange_close_reuses_exit_signal`: exit signal at date 2
opens a zone; price recovers at date 4 (orange close, end 3), stays
above at date 5, and dips below again at date 6 with conditions met; the
new zone reuses start = exit_signal = 2. -/
theorem orange_close_reuses_exit_signal_witness :
    (2 : Nat) ∉
        (zoneStep ⟨1, false⟩ [2] (some 3) ⟨[], [], some ⟨2, 2, []⟩, [2]⟩
          ⟨4, false, false, false⟩).processed_crossings ∧
      (zoneStep ⟨1, false⟩ [2] (some 5)
          (zoneLoop ⟨1, false⟩ [2] (some 4)
            (zoneStep ⟨1, false⟩ [2] (some 3) ⟨[], [], some ⟨2, 2, []⟩, [2]⟩
              ⟨4, false, false, false⟩)
            [⟨5, false, false, false⟩])
          ⟨6, true, true, false⟩).open_zone = some ⟨2, 2, []⟩ :=
  orange_close_reuses_exit_signal ⟨1, false⟩ rfl [2] (by decide) (some 3)
    ⟨[], [], some ⟨2, 2, []⟩, [2]⟩ ⟨2, 2, []⟩ rfl (by decide) (by decide)
    (by decide) ⟨4, false, false, false⟩ rfl rfl
    [⟨5, false, false, false⟩] (by decide) ⟨6, true, true, false⟩ rfl rfl rfl
    (by decide) (some 4) (some 5)

end BollingerBands
